import Mathlib

/-!
Verification development for the `torchin` weight-packing and reference-attention
repository.  The Python sources are shallowly embedded:

* `save_tensor_binary` (pack_qwen_weights.py) and `save_tensor_for_libtorch`
  (pack_qwen_weights_libtorch.py) become pure functions from tensors to byte lists;
  a float32 element is represented by its 32-bit pattern (a natural number below
  2^32), since serialization only moves the bits.
* the reader of `check_binary_format.py` (the same field-by-field parse as the
  verification read-back in pack_qwen_weights.py, lines 138-147) becomes an
  `Option`-valued parser over byte lists; `struct.unpack('<q', _)` is a signed
  decode, modelled by `sint64`.
* the per-layer packing loop becomes a function on an 11-field structure of
  tensors, and on an association-list state dict (a missing key, which raises
  `KeyError` in Python, becomes `none`).
* the reference attention computation of test.py becomes a pipeline of functions
  over rational matrices indexed by `Fin`; the only non-algebraic ingredients,
  `exp` inside softmax and the scale `1/sqrt(head_dim)`, are parameters
  (`torch.softmax` of a row containing `-inf` is modelled over `WithBot ℚ`:
  `exp(-inf) = 0`).
-/

namespace Torchin

/-! ## Little-endian byte encoding -/

/-- `w` little-endian bytes of `n` (the encoding of `struct.pack` /
`int.to_bytes(w, 'little')`); faithful for `n < 2^(8*w)`. -/
def toLE : ℕ → ℕ → List ℕ
  | 0, _ => []
  | w + 1, n => n % 256 :: toLE w (n / 256)

/-- Decode a little-endian byte list as an unsigned integer. -/
def fromLE : List ℕ → ℕ
  | [] => 0
  | b :: bs => b + 256 * fromLE bs

/-- Reinterpret the unsigned decode of an 8-byte field as a signed 64-bit
integer, as `struct.unpack('<q', _)` does. -/
def sint64 (n : ℕ) : ℤ :=
  if n < 2 ^ 63 then (n : ℤ) else (n : ℤ) - 2 ^ 64

theorem toLE_length (w n : ℕ) : (toLE w n).length = w := by
  induction w generalizing n with
  | zero => rfl
  | succ w ih => simp [toLE, ih]

theorem fromLE_toLE (w n : ℕ) (h : n < 2 ^ (8 * w)) : fromLE (toLE w n) = n := by
  induction w generalizing n with
  | zero =>
    simp only [toLE, fromLE]
    omega
  | succ w ih =>
    have hdiv : n / 256 < 2 ^ (8 * w) := by
      rw [Nat.div_lt_iff_lt_mul (by norm_num)]
      calc n < 2 ^ (8 * (w + 1)) := h
        _ = 2 ^ (8 * w) * 256 := by ring
    simp only [toLE, fromLE, ih _ hdiv]
    omega

theorem toLE_lt (w n : ℕ) : ∀ b ∈ toLE w n, b < 256 := by
  induction w generalizing n with
  | zero => simp [toLE]
  | succ w ih =>
    intro b hb
    simp only [toLE, List.mem_cons] at hb
    rcases hb with h | h
    · omega
    · exact ih _ _ h

/-! ## The tensor container (writer side)

A torch tensor after `contiguous().float()`: a shape and its dense row-major
element list, each element given by its 32-bit float pattern. -/

structure Tensor where
  shape : List ℕ
  data : List ℕ
  deriving DecidableEq, Repr

/-- `save_tensor_binary` (pack_qwen_weights.py, lines 21-38): rank as an 8-byte
little-endian integer, then each dimension as an 8-byte little-endian integer,
then the raw 4-byte float32 elements. -/
def saveTensorBinary (t : Tensor) : List ℕ :=
  toLE 8 t.shape.length ++ t.shape.flatMap (toLE 8) ++ t.data.flatMap (toLE 4)

/-- `save_tensor_for_libtorch` (pack_qwen_weights_libtorch.py, lines 17-41):
the rank is written with `ndim.to_bytes(4, 'little')` — four bytes — while each
dimension is written with `dim.to_bytes(8, 'little')` and elements are raw
4-byte float32. -/
def saveTensorForLibtorch (t : Tensor) : List ℕ :=
  toLE 4 t.shape.length ++ t.shape.flatMap (toLE 8) ++ t.data.flatMap (toLE 4)

/-! ## The tensor container (reader side, check_binary_format.py lines 23-55) -/

/-- A tensor as parsed back: dimensions are signed 64-bit values. -/
structure ReadTensor where
  shape : List ℤ
  data : List ℕ
  deriving DecidableEq, Repr

/-- Read `k` consecutive `w`-byte little-endian fields; `none` on a short read
(`len(...) != w` checks in check_binary_format.py).  Returns the decoded values
and the remaining bytes. -/
def readWords (w : ℕ) : ℕ → List ℕ → Option (List ℕ × List ℕ)
  | 0, bs => some ([], bs)
  | k + 1, bs =>
    if w ≤ bs.length then
      match readWords w k (bs.drop w) with
      | some (vs, rest) => some (fromLE (bs.take w) :: vs, rest)
      | none => none
    else none

/-- The parse performed by `check_binary` (check_binary_format.py, lines 23-55):
read an 8-byte signed rank, then `rank` signed 8-byte dimensions, compute the
element count as the product of the dimensions, and read exactly that many
4-byte elements; any short read, or a negative element count (which can never
match the non-negative length of the bytes actually read), fails.  Trailing
bytes are ignored, exactly as in the source.  The verification read-back in
pack_qwen_weights.py (lines 138-147) parses the same fields in the same order. -/
def readTensorBinary (bs : List ℕ) : Option ReadTensor :=
  match readWords 8 1 bs with
  | none => none
  | some (nv, r1) =>
    let ndim : ℤ := sint64 (nv.headD 0)
    match readWords 8 ndim.toNat r1 with
    | none => none
    | some (dv, r2) =>
      let shape : List ℤ := dv.map sint64
      let numel : ℤ := shape.prod
      if numel < 0 then none
      else
        match readWords 4 numel.toNat r2 with
        | none => none
        | some (ev, _) => some ⟨shape, ev⟩

/-! ## Round-trip lemmas -/

theorem readWords_encode (w : ℕ) (l rest : List ℕ)
    (hl : ∀ x ∈ l, x < 2 ^ (8 * w)) :
    readWords w l.length (l.flatMap (toLE w) ++ rest) = some (l, rest) := by
  induction l with
  | nil => rfl
  | cons a l ih =>
    have ha : a < 2 ^ (8 * w) := hl a (List.mem_cons_self _ _)
    have hlen : (toLE w a).length = w := toLE_length w a
    have htake : ((toLE w a ++ (l.flatMap (toLE w) ++ rest)).take w) = toLE w a := by
      rw [List.take_append_of_le_length (by omega), List.take_of_length_le (by omega)]
    have hdrop : ((toLE w a ++ (l.flatMap (toLE w) ++ rest)).drop w) =
        l.flatMap (toLE w) ++ rest := by
      rw [List.drop_append_of_le_length (by omega), List.drop_of_length_le (by omega)]
      simp
    simp only [List.length_cons, List.flatMap_cons, List.append_assoc, readWords]
    rw [if_pos (by simp [hlen])]
    rw [hdrop, ih (fun x hx => hl x (List.mem_cons_of_mem _ hx)), htake,
      fromLE_toLE w a ha]

theorem readWords_short (w k : ℕ) (bs : List ℕ)
    (h : bs.length < w * k) : readWords w k bs = none := by
  induction k generalizing bs with
  | zero => omega
  | succ k ih =>
    have hmul : w * (k + 1) = w * k + w := by ring
    simp only [readWords]
    by_cases hwb : w ≤ bs.length
    · rw [if_pos hwb, ih (bs.drop w) (by simp only [List.length_drop]; omega)]
    · rw [if_neg hwb]

/-- Total byte length of each readWords consumption step is `w * k`. -/
theorem readWords_length (w k : ℕ) (bs vs rest : List ℕ)
    (h : readWords w k bs = some (vs, rest)) : vs.length = k := by
  induction k generalizing bs vs rest with
  | zero =>
    simp only [readWords, Option.some.injEq, Prod.mk.injEq] at h
    simp [← h.1]
  | succ k ih =>
    simp only [readWords] at h
    by_cases hwb : w ≤ bs.length
    · rw [if_pos hwb] at h
      cases hrec : readWords w k (bs.drop w) with
      | none => rw [hrec] at h; exact absurd h (by simp)
      | some p =>
        rw [hrec] at h
        obtain ⟨vs', rest'⟩ := p
        simp only [Option.some.injEq, Prod.mk.injEq] at h
        have := ih (bs.drop w) vs' rest' hrec
        simp [← h.1, this]
    · rw [if_neg hwb] at h; exact absurd h (by simp)

/-- Claim C4 core: parsing the writer's output recovers the tensor. -/
theorem readTensorBinary_saveTensorBinary (t : Tensor)
    (hrank : t.shape.length < 2 ^ 63)
    (hdim : ∀ d ∈ t.shape, d < 2 ^ 63)
    (hcount : t.data.length = t.shape.prod)
    (helem : ∀ x ∈ t.data, x < 2 ^ 32) :
    readTensorBinary (saveTensorBinary t) =
      some ⟨t.shape.map (fun n => Int.ofNat n), t.data⟩ := by
  have hsint : ∀ n : ℕ, n < 2 ^ 63 → sint64 n = Int.ofNat n := by
    intro n hn; rw [sint64, if_pos hn]; rfl
  have h1 : readWords 8 1 (saveTensorBinary t) =
      some ([t.shape.length], t.shape.flatMap (toLE 8) ++ t.data.flatMap (toLE 4)) := by
    have := readWords_encode 8 [t.shape.length]
      (t.shape.flatMap (toLE 8) ++ t.data.flatMap (toLE 4))
      (by intro x hx; simp at hx; subst hx; calc t.shape.length < 2 ^ 63 := hrank
            _ < 2 ^ (8 * 8) := by norm_num)
    simpa [saveTensorBinary, List.flatMap_cons] using this
  have h2 : readWords 8 t.shape.length
      (t.shape.flatMap (toLE 8) ++ t.data.flatMap (toLE 4)) =
      some (t.shape, t.data.flatMap (toLE 4)) := by
    have := readWords_encode 8 t.shape (t.data.flatMap (toLE 4))
      (by intro x hx; calc x < 2 ^ 63 := hdim x hx
            _ < 2 ^ (8 * 8) := by norm_num)
    simpa using this
  have h3 : readWords 4 t.data.length (t.data.flatMap (toLE 4) ++ []) =
      some (t.data, []) := by
    exact readWords_encode 4 t.data []
      (by intro x hx; calc x < 2 ^ 32 := helem x hx
            _ ≤ 2 ^ (8 * 4) := by norm_num)
  rw [List.append_nil] at h3
  have hmap : (t.shape.map (fun n => sint64 n)) = t.shape.map (fun n => Int.ofNat n) := by
    apply List.map_congr_left
    intro d hd
    exact hsint d (hdim d hd)
  have hprod : ∀ l : List ℕ, (l.map (fun n => Int.ofNat n)).prod = Int.ofNat l.prod := by
    intro l
    induction l with
    | nil => rfl
    | cons a l ih =>
      rw [List.map_cons, List.prod_cons, ih, List.prod_cons]
      exact (Int.ofNat_mul a l.prod).symm
  have htoNat : (Int.ofNat t.shape.prod).toNat = t.shape.prod := rfl
  have htoNatLen : (Int.ofNat t.shape.length).toNat = t.shape.length := rfl
  simp only [readTensorBinary, h1, List.headD_cons]
  rw [hsint _ hrank]
  show (match readWords 8 (Int.ofNat t.shape.length).toNat
      (t.shape.flatMap (toLE 8) ++ t.data.flatMap (toLE 4)) with
    | none => none
    | some (dv, r2) =>
      let shape : List ℤ := dv.map sint64
      let numel : ℤ := shape.prod
      if numel < 0 then none
      else
        match readWords 4 numel.toNat r2 with
        | none => none
        | some (ev, _) => some (⟨shape, ev⟩ : ReadTensor)) =
    some (⟨t.shape.map (fun n => Int.ofNat n), t.data⟩ : ReadTensor)
  rw [htoNatLen, h2]
  simp only [hmap, hprod]
  rw [if_neg (by exact not_lt.mpr (Int.ofNat_nonneg _))]
  rw [htoNat, ← hcount, h3]

/-- Claim C4: for every well-formed tensor (positive dimensions representable as
64-bit values, element count equal to the product of the shape), parsing the
bytes produced by `save_tensor_binary` reproduces the tensor's rank, shape and
elements exactly; elements are 32-bit patterns, so equality is bit-equality. -/
theorem roundtrip_save_read (t : Tensor)
    (hrank : t.shape.length < 2 ^ 63)
    (hdim : ∀ d ∈ t.shape, 0 < d ∧ d < 2 ^ 63)
    (hcount : t.data.length = t.shape.prod)
    (helem : ∀ x ∈ t.data, x < 2 ^ 32) :
    readTensorBinary (saveTensorBinary t) =
      some ⟨t.shape.map (fun n => Int.ofNat n), t.data⟩ :=
  readTensorBinary_saveTensorBinary t hrank (fun d hd => (hdim d hd).2) hcount helem

/-- Witness for C4 at the concrete tensor of shape `[2, 3]` with six elements. -/
theorem roundtrip_save_read_witness :
    readTensorBinary (saveTensorBinary ⟨[2, 3], [10, 11, 12, 13, 14, 15]⟩) =
      some ⟨[Int.ofNat 2, Int.ofNat 3], [10, 11, 12, 13, 14, 15]⟩ :=
  roundtrip_save_read ⟨[2, 3], [10, 11, 12, 13, 14, 15]⟩
    (by decide) (by decide) (by decide) (by decide)

/-- Claim C5 (code bug): evaluated at the tensor of shape `[1]` with the single
element pattern `7`, `save_tensor_binary` writes the rank as an 8-byte
little-endian integer but `save_tensor_for_libtorch` writes it as a 4-byte
little-endian integer, so the two serializers do not emit the same layout; the
repository's own format checker (`check_binary`) fails on the libtorch output. -/
theorem serializer_layouts_diverge :
    saveTensorBinary ⟨[1], [7]⟩ = toLE 8 1 ++ toLE 8 1 ++ toLE 4 7
    ∧ saveTensorForLibtorch ⟨[1], [7]⟩ = toLE 4 1 ++ toLE 8 1 ++ toLE 4 7
    ∧ (saveTensorBinary ⟨[1], [7]⟩).length = 20
    ∧ (saveTensorForLibtorch ⟨[1], [7]⟩).length = 16
    ∧ saveTensorForLibtorch ⟨[1], [7]⟩ ≠ saveTensorBinary ⟨[1], [7]⟩
    ∧ readTensorBinary (saveTensorBinary ⟨[1], [7]⟩) = some ⟨[Int.ofNat 1], [7]⟩
    ∧ readTensorBinary (saveTensorForLibtorch ⟨[1], [7]⟩) = none := by
  refine ⟨rfl, rfl, by decide, by decide, by decide, by decide, by decide⟩

/-- Counterexample to claim C6: a file that declares a single dimension equal to
`0` (which the claim says must be rejected, since `0 ≤ 0`) is read back
successfully by `check_binary` as an empty tensor: `numel = 0` makes the data
read trivially succeed. -/
theorem read_accepts_zero_dim :
    readTensorBinary (toLE 8 1 ++ toLE 8 0) = some ⟨[0], []⟩ := by
  decide

/-- Claim C6 as amended: the reader fails whenever the file ends before
`product(shape)` elements have been read (truncation of the data block is
always rejected), and a successfully read tensor is never zero-padded or
truncated: its element list has exactly `product(shape)` entries, and the
declared product is non-negative.  (A declared dimension of `0` is accepted,
and no 64-bit-overflow check is performed: Python integers are unbounded.) -/
theorem read_rejects_short_data :
    (∀ t : Tensor, t.shape.length < 2 ^ 63 → (∀ d ∈ t.shape, d < 2 ^ 63) →
      ∀ m : ℕ, m < 4 * t.shape.prod →
      readTensorBinary (toLE 8 t.shape.length ++ t.shape.flatMap (toLE 8) ++
        (t.data.flatMap (toLE 4)).take m) = none)
    ∧ (∀ (bs : List ℕ) (rt : ReadTensor), readTensorBinary bs = some rt →
        0 ≤ rt.shape.prod ∧ rt.data.length = rt.shape.prod.toNat) := by
  constructor
  · intro t hrank hdim m hm
    have hsint : ∀ n : ℕ, n < 2 ^ 63 → sint64 n = Int.ofNat n := by
      intro n hn; rw [sint64, if_pos hn]; rfl
    have h1 : readWords 8 1 (toLE 8 t.shape.length ++ t.shape.flatMap (toLE 8) ++
        (t.data.flatMap (toLE 4)).take m) =
        some ([t.shape.length],
          t.shape.flatMap (toLE 8) ++ (t.data.flatMap (toLE 4)).take m) := by
      have := readWords_encode 8 [t.shape.length]
        (t.shape.flatMap (toLE 8) ++ (t.data.flatMap (toLE 4)).take m)
        (by intro x hx; simp at hx; subst hx;
            calc t.shape.length < 2 ^ 63 := hrank
              _ < 2 ^ (8 * 8) := by norm_num)
      simpa [List.flatMap_cons] using this
    have h2 : readWords 8 t.shape.length
        (t.shape.flatMap (toLE 8) ++ (t.data.flatMap (toLE 4)).take m) =
        some (t.shape, (t.data.flatMap (toLE 4)).take m) :=
      readWords_encode 8 t.shape ((t.data.flatMap (toLE 4)).take m)
        (by intro x hx;
            calc x < 2 ^ 63 := hdim x hx
              _ < 2 ^ (8 * 8) := by norm_num)
    have hmap : (t.shape.map (fun n => sint64 n)) = t.shape.map (fun n => Int.ofNat n) :=
      List.map_congr_left fun d hd => hsint d (hdim d hd)
    have hprod : ∀ l : List ℕ, (l.map (fun n => Int.ofNat n)).prod = Int.ofNat l.prod := by
      intro l
      induction l with
      | nil => rfl
      | cons a l ih =>
        rw [List.map_cons, List.prod_cons, ih, List.prod_cons]
        exact (Int.ofNat_mul a l.prod).symm
    have h3 : readWords 4 t.shape.prod ((t.data.flatMap (toLE 4)).take m) = none := by
      apply readWords_short
      calc ((t.data.flatMap (toLE 4)).take m).length ≤ m := by
            simp [List.length_take]
        _ < 4 * t.shape.prod := hm
    have htoNatLen : (Int.ofNat t.shape.length).toNat = t.shape.length := rfl
    have htoNat : (Int.ofNat t.shape.prod).toNat = t.shape.prod := rfl
    simp only [readTensorBinary, h1, List.headD_cons]
    rw [hsint _ hrank, htoNatLen, h2]
    simp only [hmap, hprod]
    rw [if_neg (by exact not_lt.mpr (Int.ofNat_nonneg _)), htoNat, h3]
  · intro bs rt h
    simp only [readTensorBinary] at h
    cases h1 : readWords 8 1 bs with
    | none => rw [h1] at h; exact absurd h (by simp)
    | some p1 =>
      obtain ⟨nv, r1⟩ := p1
      simp only [h1] at h
      cases h2 : readWords 8 (sint64 (nv.headD 0)).toNat r1 with
      | none => simp only [h2] at h; exact absurd h (by simp)
      | some p2 =>
        obtain ⟨dv, r2⟩ := p2
        simp only [h2] at h
        by_cases hneg : (dv.map sint64).prod < 0
        · rw [if_pos hneg] at h; exact absurd h (by simp)
        · rw [if_neg hneg] at h
          cases h3 : readWords 4 (dv.map sint64).prod.toNat r2 with
          | none => simp only [h3] at h; exact absurd h (by simp)
          | some p3 =>
            obtain ⟨ev, rest⟩ := p3
            simp only [h3, Option.some.injEq] at h
            subst h
            refine ⟨not_lt.mp hneg, ?_⟩
            exact readWords_length 4 _ r2 ev rest h3

/-- Witness for the amended C6: a file for the tensor of shape `[2]` whose data
block is truncated to 7 of its 8 bytes fails to read. -/
theorem read_rejects_short_data_witness :
    readTensorBinary (toLE 8 1 ++ [2].flatMap (toLE 8) ++
      (([5, 6] : List ℕ).flatMap (toLE 4)).take 7) = none :=
  read_rejects_short_data.1 ⟨[2], [5, 6]⟩ (by decide) (by decide) 7 (by decide)

/-! ## Layer packing (pack_qwen_weights.py, lines 84-116) -/

/-- The eleven named weight tensors of one transformer layer, as pulled from
the state dict in pack_qwen_weights.py lines 88-100. -/
structure LayerTensors where
  input_layernorm : Tensor
  post_attention_layernorm : Tensor
  q_proj : Tensor
  k_proj : Tensor
  v_proj : Tensor
  o_proj : Tensor
  q_norm : Tensor
  k_norm : Tensor
  gate_proj : Tensor
  up_proj : Tensor
  down_proj : Tensor
  deriving DecidableEq

/-- The `tensors` list of pack_qwen_weights.py lines 88-100, in its exact
source order. -/
def layerOrder (L : LayerTensors) : List Tensor :=
  [L.input_layernorm, L.post_attention_layernorm, L.q_proj, L.k_proj, L.v_proj,
   L.o_proj, L.q_norm, L.k_norm, L.gate_proj, L.up_proj, L.down_proj]

/-- `packed = torch.cat([t.flatten().float() for t in tensors])`
(pack_qwen_weights.py line 103): a rank-1 tensor whose data is the
concatenation of the row-major data of the eleven tensors, in order.  No
names or segment boundaries are stored. -/
def packLayer (L : LayerTensors) : Tensor :=
  ⟨[(((layerOrder L).map (fun t => t.data)).map List.length).sum],
   ((layerOrder L).map (fun t => t.data)).flatten⟩

/-- The offset of segment `i`, derived purely from the shapes of the preceding
segments (the `offset += t.numel()` accumulation of lines 110-116). -/
def segOffset (L : LayerTensors) (i : ℕ) : ℕ :=
  ((((layerOrder L).take i).map (fun t => t.shape.prod))).sum

theorem flatten_drop_take (ls : List Tensor)
    (hwf : ∀ t ∈ ls, t.data.length = t.shape.prod) (i : Fin ls.length) :
    (((ls.map (fun t => t.data)).flatten.drop
        (((ls.take i).map (fun t => t.shape.prod)).sum)).take
      ((ls.get i).shape.prod)) = (ls.get i).data := by
  induction ls with
  | nil => exact absurd i.isLt (by simp)
  | cons a ls ih =>
    have ha : a.data.length = a.shape.prod := hwf a (List.mem_cons_self _ _)
    obtain ⟨iv, hi⟩ := i
    cases iv with
    | zero =>
      simp only [List.take_zero, List.map_nil, List.sum_nil, List.drop_zero,
        List.map_cons, List.flatten_cons, List.get]
      rw [← ha]
      exact List.take_left a.data (ls.map (fun t => t.data)).flatten
    | succ n =>
      have hn : n < ls.length := by simpa using hi
      have := ih (fun t ht => hwf t (List.mem_cons_of_mem _ ht)) ⟨n, hn⟩
      simp only [List.take_succ_cons, List.map_cons, List.sum_cons,
        List.flatten_cons, List.get]
      rw [← ha, ← List.drop_drop, List.drop_left]
      exact this

/-- Claim C7: the packer concatenates the row-major data of the eleven tensors
in the fixed source order into one rank-1 tensor, and segment `i` sits at the
offset given by the sum of `product(shape_j)` over the preceding segments,
with no boundary metadata stored (the packed tensor is nothing but the
concatenation). -/
theorem packLayer_fixed_order_offsets (L : LayerTensors)
    (hwf : ∀ t ∈ layerOrder L, t.data.length = t.shape.prod) :
    (packLayer L).shape.length = 1
    ∧ (packLayer L).data = ((layerOrder L).map (fun t => t.data)).flatten
    ∧ ∀ i : Fin (layerOrder L).length,
        (((packLayer L).data.drop (segOffset L i)).take
            (((layerOrder L).get i).shape.prod))
          = ((layerOrder L).get i).data := by
  exact ⟨rfl, rfl, fun i => flatten_drop_take (layerOrder L) hwf i⟩

/-- A concrete layer instance: eleven tensors with distinct data. -/
def sampleLayer : LayerTensors :=
  ⟨⟨[1], [0]⟩, ⟨[1], [1]⟩, ⟨[2], [2, 3]⟩, ⟨[1], [4]⟩, ⟨[1], [5]⟩,
   ⟨[1], [6]⟩, ⟨[1], [7]⟩, ⟨[1], [8]⟩, ⟨[1], [9]⟩, ⟨[1], [10]⟩, ⟨[1], [11]⟩⟩

/-- Witness for C7 at `sampleLayer`, exercising the offset law at
segment 2 (`q_proj`). -/
theorem packLayer_fixed_order_offsets_witness :
    ((packLayer sampleLayer).data.drop (segOffset sampleLayer 2)).take 2 = [2, 3] :=
  (packLayer_fixed_order_offsets sampleLayer (by decide)).2.2 ⟨2, by decide⟩

/-! ## Packing from the model state dict (pack_qwen_weights.py, lines 84-106)

The source builds the `tensors` list with plain dictionary indexing
`state[f"{prefix}..."]`; a key that is absent raises `KeyError` and aborts the
export.  A dictionary is modelled as an association list and the raised
exception as `none`. -/

/-- `state[key]` on an association list: `none` is Python's `KeyError`. -/
def stateLookup (state : List (String × Tensor)) (key : String) : Option Tensor :=
  (state.find? (fun p => p.1 = key)).map (fun p => p.2)

/-- The eleven keys looked up for one layer, in source order
(pack_qwen_weights.py lines 88-100), for a given `prefix`
(`f"model.layers.{i}."`). -/
def layerKeyList (pfx : String) : List String :=
  [pfx ++ "input_layernorm.weight",
   pfx ++ "post_attention_layernorm.weight",
   pfx ++ "self_attn.q_proj.weight",
   pfx ++ "self_attn.k_proj.weight",
   pfx ++ "self_attn.v_proj.weight",
   pfx ++ "self_attn.o_proj.weight",
   pfx ++ "self_attn.q_norm.weight",
   pfx ++ "self_attn.k_norm.weight",
   pfx ++ "mlp.gate_proj.weight",
   pfx ++ "mlp.up_proj.weight",
   pfx ++ "mlp.down_proj.weight"]

/-- Collect a list of optional values; `none` as soon as any is missing (the
first `KeyError` aborts the list construction). -/
def optList {α : Type} : List (Option α) → Option (List α)
  | [] => some []
  | none :: _ => none
  | some a :: os =>
    match optList os with
    | some as => some (a :: as)
    | none => none

/-- The per-layer packing of pack_qwen_weights.py (lines 84-106) as a function
of the state dict: look up the eleven keys in order and concatenate the
flattened tensors; if any key is missing the export aborts with no output. -/
def packLayerFromState (state : List (String × Tensor)) (pfx : String) : Option Tensor :=
  match optList ((layerKeyList pfx).map (stateLookup state)) with
  | none => none
  | some ts => some ⟨[((ts.map (fun t => t.data)).map List.length).sum],
                     ((ts.map (fun t => t.data)).flatten)⟩

/-- A state dict holding the nine non-normalization tensors of layer 0 — a
model variant without per-head query/key normalization. -/
def stateNoQKNorm : List (String × Tensor) :=
  [("model.layers.0.input_layernorm.weight", ⟨[1], [0]⟩),
   ("model.layers.0.post_attention_layernorm.weight", ⟨[1], [1]⟩),
   ("model.layers.0.self_attn.q_proj.weight", ⟨[1], [2]⟩),
   ("model.layers.0.self_attn.k_proj.weight", ⟨[1], [3]⟩),
   ("model.layers.0.self_attn.v_proj.weight", ⟨[1], [4]⟩),
   ("model.layers.0.self_attn.o_proj.weight", ⟨[1], [5]⟩),
   ("model.layers.0.mlp.gate_proj.weight", ⟨[1], [6]⟩),
   ("model.layers.0.mlp.up_proj.weight", ⟨[1], [7]⟩),
   ("model.layers.0.mlp.down_proj.weight", ⟨[1], [8]⟩)]

/-- Counterexample to claim C8: on a state dict lacking the `q_norm`/`k_norm`
tensors the packer produces nothing at all — the `state[...]` lookup raises —
rather than a packed layer with zero-filled placeholder segments.  No branch in
pack_qwen_weights.py substitutes placeholders. -/
theorem packer_fails_without_qk_norm :
    packLayerFromState stateNoQKNorm "model.layers.0." = none := by
  decide

/-- Claim C8 as amended: the packer requires all eleven named tensors to be
present; whenever the `q_norm` lookup misses, no packed layer is produced (and
symmetrically for `k_norm`) — there is no placeholder branch. -/
theorem packer_requires_qk_norm (state : List (String × Tensor)) (pfx : String) :
    (stateLookup state (pfx ++ "self_attn.q_norm.weight") = none →
      packLayerFromState state pfx = none)
    ∧ (stateLookup state (pfx ++ "self_attn.k_norm.weight") = none →
      packLayerFromState state pfx = none) := by
  constructor
  · intro h
    simp only [packLayerFromState, layerKeyList, List.map_cons, List.map_nil, h, optList]
    cases stateLookup state (pfx ++ "input_layernorm.weight") <;>
      cases stateLookup state (pfx ++ "post_attention_layernorm.weight") <;>
      cases stateLookup state (pfx ++ "self_attn.q_proj.weight") <;>
      cases stateLookup state (pfx ++ "self_attn.k_proj.weight") <;>
      cases stateLookup state (pfx ++ "self_attn.v_proj.weight") <;>
      cases stateLookup state (pfx ++ "self_attn.o_proj.weight") <;>
      simp [optList]
  · intro h
    simp only [packLayerFromState, layerKeyList, List.map_cons, List.map_nil, h, optList]
    cases stateLookup state (pfx ++ "input_layernorm.weight") <;>
      cases stateLookup state (pfx ++ "post_attention_layernorm.weight") <;>
      cases stateLookup state (pfx ++ "self_attn.q_proj.weight") <;>
      cases stateLookup state (pfx ++ "self_attn.k_proj.weight") <;>
      cases stateLookup state (pfx ++ "self_attn.v_proj.weight") <;>
      cases stateLookup state (pfx ++ "self_attn.o_proj.weight") <;>
      cases stateLookup state (pfx ++ "self_attn.q_norm.weight") <;>
      simp [optList]

/-- Witness for the amended C8 at the concrete variant state dict. -/
theorem packer_requires_qk_norm_witness :
    packLayerFromState stateNoQKNorm "model.layers.1." = none :=
  (packer_requires_qk_norm stateNoQKNorm "model.layers.1.").1 (by decide)

/-! ## File-system behaviour of the writer (pack_qwen_weights.py, lines 26-36)

`save_tensor_binary` does `with open(path, 'wb') as f:` on its argument path
and then writes the header and data incrementally.  The observable file-system
actions are modelled as an event trace. -/

inductive FsEvent where
  | openWrite (path : String)
  | writeBytes (path : String) (bytes : List ℕ)
  | rename (src : String) (dst : String)
  deriving DecidableEq, Repr

/-- The trace of file-system events performed by `save_tensor_binary path t`:
open the given path for writing, then write the rank field, each dimension
field in order, and the data block, all to that same path.  There is no
temporary file and no rename. -/
def saveTensorBinaryEvents (path : String) (t : Tensor) : List FsEvent :=
  FsEvent.openWrite path ::
  FsEvent.writeBytes path (toLE 8 t.shape.length) ::
  (t.shape.map (fun d => FsEvent.writeBytes path (toLE 8 d)) ++
   [FsEvent.writeBytes path (t.data.flatMap (toLE 4))])

/-- Whether a trace contains any rename event. -/
def hasRename (evs : List FsEvent) : Bool :=
  evs.any (fun e => match e with
    | FsEvent.rename _ _ => true
    | _ => false)

/-- Whether a trace opens the given path directly for writing. -/
def opensForWrite (evs : List FsEvent) (path : String) : Bool :=
  evs.any (fun e => match e with
    | FsEvent.openWrite p => p = path
    | _ => false)

/-- Counterexample to claim C9: at the concrete output path `"out.bin"` and
the tensor of shape `[1]`, the writer opens the final path itself for writing
and performs no rename at all — there is no temporary path that is atomically
renamed on success. -/
theorem save_not_atomic :
    hasRename (saveTensorBinaryEvents "out.bin" ⟨[1], [7]⟩) = false
    ∧ opensForWrite (saveTensorBinaryEvents "out.bin" ⟨[1], [7]⟩) "out.bin" = true := by
  constructor
  · rfl
  · rfl

/-- The path an event touches (for a rename, the destination). -/
def eventTarget : FsEvent → String
  | FsEvent.openWrite p => p
  | FsEvent.writeBytes p _ => p
  | FsEvent.rename _ dst => dst

/-- Claim C9 as amended: for every path and tensor, `save_tensor_binary` opens
the final path directly (it is the first event of the trace), every event in
the trace targets that same final path, and no rename ever occurs; hence an
interrupted export can leave a partially written file at the final path. -/
theorem save_writes_final_path_directly (path : String) (t : Tensor) :
    (saveTensorBinaryEvents path t).head? = some (FsEvent.openWrite path)
    ∧ hasRename (saveTensorBinaryEvents path t) = false
    ∧ ∀ e ∈ saveTensorBinaryEvents path t, eventTarget e = path := by
  refine ⟨rfl, ?_, ?_⟩
  · simp only [hasRename, saveTensorBinaryEvents, List.any_cons, List.any_append]
    have : ∀ l : List ℕ,
        (l.map (fun d => FsEvent.writeBytes path (toLE 8 d))).any (fun e => match e with
          | FsEvent.rename _ _ => true
          | _ => false) = false := by
      intro l
      induction l with
      | nil => rfl
      | cons a l ih => simp only [List.map_cons, List.any_cons, ih]; rfl
    simp [this]
  · intro e he
    simp only [saveTensorBinaryEvents, List.mem_cons, List.mem_append,
      List.mem_map, List.mem_singleton] at he
    rcases he with h | h | ⟨d, _, h⟩ | h
    · subst h; rfl
    · subst h; rfl
    · subst h; rfl
    · rcases h with h | h
      · subst h; rfl
      · exact absurd h (List.not_mem_nil e)

/-- Witness for the amended C9: the first event of the concrete trace targets
the final path. -/
theorem save_writes_final_path_directly_witness :
    eventTarget (FsEvent.openWrite "w.bin") = "w.bin" :=
  (save_writes_final_path_directly "w.bin" ⟨[1], [7]⟩).2.2
    (FsEvent.openWrite "w.bin") (List.mem_cons_self _ _)

/-! ## Arbitrary dtype and memory layout (C10)

A torch tensor before `contiguous().float()` may have any strides, storage
offset and element dtype.  `TorchTensor` models this: `storage` holds the
elements as abstract values, and `contiguous()` materializes the row-major
order by walking the strides.  `.float()` maps every element through a 32-bit
encoding function (a parameter: the value-level float64→float32 conversion is
outside the serialization logic). -/

structure TorchTensor where
  shape : List ℕ
  strides : List ℕ
  offset : ℕ
  storage : List ℚ

/-- The storage indices of the elements in row-major order: index
`offset + Σ iₖ · strideₖ` for each multi-index `(i₀, …)` enumerated with the
last axis fastest — what `contiguous()` gathers. -/
def gatherIdx : List ℕ → List ℕ → ℕ → List ℕ
  | [], _, base => [base]
  | d :: ds, st, base =>
    (List.range d).flatMap (fun i => gatherIdx ds (st.drop 1) (base + i * st.headD 0))

/-- `t.contiguous()`: the dense row-major element list of the tensor. -/
def contiguousData (T : TorchTensor) : List ℚ :=
  (gatherIdx T.shape T.strides T.offset).map (fun ix => T.storage.getD ix 0)

/-- `t.contiguous().float()`: the writer-side tensor whose elements are the
32-bit patterns of the float32 conversions of the gathered values. -/
def toFloat32Words (f32 : ℚ → ℕ) (T : TorchTensor) : Tensor :=
  ⟨T.shape, (contiguousData T).map f32⟩

theorem sum_map_const_range (d c : ℕ) :
    ((List.range d).map (fun _ => c)).sum = d * c := by
  induction d with
  | zero => simp
  | succ n ihn =>
    rw [List.range_succ, List.map_append, List.sum_append, ihn]
    simp [Nat.succ_mul]

theorem gatherIdx_length (ds : List ℕ) (st : List ℕ) (base : ℕ) :
    (gatherIdx ds st base).length = ds.prod := by
  induction ds generalizing st base with
  | nil => rfl
  | cons d ds ih =>
    simp only [gatherIdx, List.length_flatMap, List.prod_cons]
    have hmap : ((List.range d).map
        (List.length ∘ fun i => gatherIdx ds (st.drop 1) (base + i * st.headD 0)))
        = (List.range d).map (fun _ => ds.prod) := by
      apply List.map_congr_left
      intro i _
      exact ih _ _
    rw [hmap, sum_map_const_range]

theorem contiguousData_length (T : TorchTensor) :
    (contiguousData T).length = T.shape.prod := by
  rw [contiguousData, List.length_map, gatherIdx_length]

theorem flatMap_toLE_length (w : ℕ) (l : List ℕ) :
    (l.flatMap (toLE w)).length = w * l.length := by
  induction l with
  | nil => simp
  | cons a l ih =>
    rw [List.flatMap_cons, List.length_append, toLE_length, ih, List.length_cons]
    ring

/-- Claim C10: whatever the strides, storage offset and element values of the
input tensor, the writers first coerce it to a contiguous float32 tensor, so
the written rank and dimensions equal the input's shape, the data block holds
exactly `4 * product(shape)` bytes, and the `save_tensor_binary` output parses
back as a well-formed tensor of that shape with `product(shape)` elements.
The libtorch writer emits the same shape and data block behind its own
(4-byte-rank) header. -/
theorem writer_output_wellformed (T : TorchTensor) (f32 : ℚ → ℕ)
    (hf : ∀ x : ℚ, f32 x < 2 ^ 32)
    (hrank : T.shape.length < 2 ^ 63)
    (hdim : ∀ d ∈ T.shape, d < 2 ^ 63) :
    (toFloat32Words f32 T).shape = T.shape
    ∧ ((toFloat32Words f32 T).data.flatMap (toLE 4)).length = 4 * T.shape.prod
    ∧ readTensorBinary (saveTensorBinary (toFloat32Words f32 T)) =
        some ⟨T.shape.map (fun n => Int.ofNat n), (contiguousData T).map f32⟩
    ∧ saveTensorForLibtorch (toFloat32Words f32 T) =
        toLE 4 T.shape.length ++ T.shape.flatMap (toLE 8) ++
          (toFloat32Words f32 T).data.flatMap (toLE 4) := by
  have hlen : (toFloat32Words f32 T).data.length = T.shape.prod := by
    rw [toFloat32Words, List.length_map, contiguousData_length]
  refine ⟨rfl, ?_, ?_, rfl⟩
  · rw [flatMap_toLE_length, hlen]
  · exact readTensorBinary_saveTensorBinary (toFloat32Words f32 T) hrank hdim hlen
      (by intro x hx
          rw [toFloat32Words] at hx
          obtain ⟨v, _, rfl⟩ := List.mem_map.mp hx
          exact hf v)

/-- Witness for C10 at a 2×2 tensor stored transposed (strides `[1, 2]`) with
the constant-zero float32 encoding. -/
theorem writer_output_wellformed_witness :
    readTensorBinary (saveTensorBinary
        (toFloat32Words (fun _ => 0) ⟨[2, 2], [1, 2], 0, [1, 2, 3, 4]⟩)) =
      some ⟨[Int.ofNat 2, Int.ofNat 2], [0, 0, 0, 0]⟩ :=
  (writer_output_wellformed ⟨[2, 2], [1, 2], 0, [1, 2, 3, 4]⟩ (fun _ => 0)
    (fun x => by norm_num) (by decide) (by decide)).2.2.1

/-! ## The reference attention computation (src/test.py)

test.py computes one grouped-query-attention block over exact tensors (batch
size 1 throughout, so the batch axis is dropped).  Matrices are functions on
`Fin`; arithmetic is over `ℚ`.  Two ingredients are irreducibly non-algebraic
and become parameters: the softmax exponential `e` (only its positivity
matters) and the score scale `invSqrtD` standing for `1 / sqrt(head_dim)`
(`128 ** 0.5` is irrational). -/

/-- A torch `nn.Linear` without bias, as in Qwen3 attention projections:
`y = x @ W.T`, so output row `r` is `Σ_j x_j * W[r, j]`. -/
def linearT {o c : ℕ} (W : Fin o → Fin c → ℚ) (x : Fin c → ℚ) : Fin o → ℚ :=
  fun r => ∑ j, x j * W r j

/-- `.view(1, seq, H, d)` applied to one row of length `H * d` (test.py lines
22-24): head `h`, channel `t` reads flat index `h * d + t`. -/
def reshapeHeads (H d : ℕ) (x : Fin (H * d) → ℚ) : Fin H → Fin d → ℚ :=
  fun h t => x ⟨(h : ℕ) * d + (t : ℕ), by
    have ht : (t : ℕ) < d := t.isLt
    calc (h : ℕ) * d + (t : ℕ) < (h : ℕ) * d + d := by omega
      _ = ((h : ℕ) + 1) * d := by ring
      _ ≤ H * d := Nat.mul_le_mul_right d (Nat.succ_le_of_lt h.isLt)⟩

/-- Modelled from the spec: the per-head query/key normalization module
(`self_attn.q_norm` / `self_attn.k_norm` called in test.py lines 27-28) is
implemented in the external `transformers` library, not in this repository;
the spec describes it as the "elementwise scale of each length-d head slice by
the learned vector". -/
def qkNorm {d : ℕ} (w : Fin d → ℚ) (x : Fin d → ℚ) : Fin d → ℚ :=
  fun t => x t * w t

/-- `torch.repeat_interleave(g, dim)` along a list: each entry is repeated `g`
consecutive times, in order. -/
def repeatInterleaveList {α : Type} (g : ℕ) (l : List α) : List α :=
  l.flatMap (fun x => List.replicate g x)

theorem repeatInterleaveList_length {α : Type} (g : ℕ) (l : List α) :
    (repeatInterleaveList g l).length = l.length * g := by
  induction l with
  | nil => simp [repeatInterleaveList]
  | cons a l ih =>
    simp only [repeatInterleaveList, List.flatMap_cons, List.length_append,
      List.length_replicate] at *
    rw [ih, List.length_cons]
    ring

theorem repeatInterleaveList_getElem {α : Type} (g : ℕ) (l : List α) (i : ℕ)
    (hi : i < l.length * g) :
    (repeatInterleaveList g l)[i]? = l[i / g]? := by
  induction l generalizing i with
  | nil => simp at hi
  | cons a l ih =>
    have hg : 0 < g := by
      rcases Nat.eq_zero_or_pos g with h0 | h0
      · subst h0; simp at hi
      · exact h0
    have hsplit : repeatInterleaveList g (a :: l) =
        List.replicate g a ++ repeatInterleaveList g l := by
      simp [repeatInterleaveList, List.flatMap_cons]
    rw [hsplit, List.getElem?_append]
    by_cases hig : i < g
    · rw [if_pos (by simpa using hig), Nat.div_eq_of_lt hig]
      simp [List.getElem?_replicate, hig]
    · push_neg at hig
      rw [if_neg (by simp only [List.length_replicate]; omega)]
      simp only [List.length_replicate]
      have hrec : i - g < l.length * g := by
        rw [List.length_cons] at hi
        have hmul : (l.length + 1) * g = l.length * g + g := by ring
        omega
      rw [ih _ hrec, Nat.div_eq_sub_div hg hig, List.getElem?_cons_succ]

/-- Head-axis expansion as a function on head-indexed families: query head `h`
of the expanded family reads the repeat-interleaved list at position `h`. -/
def repeatHeads {V : Type} {n : ℕ} (g : ℕ) (K : Fin n → V) : Fin (n * g) → V :=
  fun h => (repeatInterleaveList g (List.ofFn K)).get
    ⟨h, by rw [repeatInterleaveList_length, List.length_ofFn]; exact h.isLt⟩

/-- The key/value head that query head `h` draws from. -/
def kvPair {Hkv g : ℕ} (h : Fin (Hkv * g)) : Fin Hkv :=
  ⟨(h : ℕ) / g, Nat.div_lt_of_lt_mul (by rw [Nat.mul_comm g Hkv]; exact h.isLt)⟩

theorem repeatHeads_apply {V : Type} {n g : ℕ} (K : Fin n → V) (h : Fin (n * g)) :
    repeatHeads g K h = K (kvPair h) := by
  have hdiv : (h : ℕ) / g < n := (kvPair h).isLt
  have h1 : (repeatInterleaveList g (List.ofFn K))[(h : ℕ)]? =
      (List.ofFn K)[(h : ℕ) / g]? :=
    repeatInterleaveList_getElem g (List.ofFn K) h
      (by rw [List.length_ofFn]; exact h.isLt)
  have h2 : (List.ofFn K)[(h : ℕ) / g]? = some (K (kvPair h)) := by
    rw [List.getElem?_ofFn]
    simp [List.ofFnNthVal, hdiv, kvPair]
  have h3 : (repeatInterleaveList g (List.ofFn K))[(h : ℕ)]? =
      some (repeatHeads g K h) := by
    rw [repeatHeads]
    exact List.getElem?_eq_getElem _
  rw [h3, h2] at h1
  exact Option.some.inj h1

/-- Projection plus reshape to heads (test.py lines 17-24): one projection
matrix applied to every position, then `.view` into `H` heads of width `d`. -/
def headsOf (seq H d hid : ℕ) (W : Fin (H * d) → Fin hid → ℚ)
    (hidden : Fin seq → Fin hid → ℚ) : Fin seq → Fin H → Fin d → ℚ :=
  fun s => reshapeHeads H d (linearT W (hidden s))

/-- The per-head normalization applied at every position and head
(test.py lines 27-28). -/
def normHeads (seq H d : ℕ) (w : Fin d → ℚ)
    (x : Fin seq → Fin H → Fin d → ℚ) : Fin seq → Fin H → Fin d → ℚ :=
  fun s h => qkNorm w (x s h)

/-- `k.repeat_interleave(2, dim=1)` after the transpose (test.py lines 36-37):
the head axis is expanded by repeating each key/value head `g` consecutive
times. -/
def expandKV (seq Hkv d g : ℕ) (x : Fin seq → Fin Hkv → Fin d → ℚ) :
    Fin seq → Fin (Hkv * g) → Fin d → ℚ :=
  fun s => repeatHeads g (x s)

/-- `torch.matmul(q, k.transpose(-2, -1)) / (128 ** 0.5)` (test.py line 40):
the scaled dot product of query `i` and key `j` in head `h`. -/
def attnScores (seq H d : ℕ) (invSqrtD : ℚ)
    (q k : Fin seq → Fin H → Fin d → ℚ) (h : Fin H) (i j : Fin seq) : ℚ :=
  (∑ t, q i h t * k j h t) * invSqrtD

/-- `torch.triu(torch.full((6, 6), float('-inf')), diagonal=1)` (test.py line
43): `-inf` (the bottom of `WithBot ℚ`) strictly above the diagonal, `0`
elsewhere. -/
def causalMask (seq : ℕ) (i j : Fin seq) : WithBot ℚ :=
  if (i : ℕ) < (j : ℕ) then (⊥ : WithBot ℚ) else ((0 : ℚ) : WithBot ℚ)

/-- The exponential extended to masked scores: `exp(-inf) = 0`, which is what
IEEE arithmetic gives `torch.softmax` on a `-inf` entry. -/
def expBot (e : ℚ → ℚ) : WithBot ℚ → ℚ
  | ⊥ => 0
  | (a : ℚ) => e a

/-- `torch.softmax(scores, dim=-1)` on one (possibly masked) row. -/
def maskedSoftmax (seq : ℕ) (e : ℚ → ℚ) (row : Fin seq → WithBot ℚ)
    (j : Fin seq) : ℚ :=
  expBot e (row j) / ∑ j2, expBot e (row j2)

/-- The scores the reference block computes: normalization is applied to the
reshaped Q and K first (lines 27-28), K is then expanded along the head axis
(line 36), and the scaled dot product is taken (line 40). -/
def refAttnScores (seq Hkv g d hid : ℕ) (invSqrtD : ℚ)
    (hidden : Fin seq → Fin hid → ℚ)
    (Wq : Fin (Hkv * g * d) → Fin hid → ℚ) (Wk : Fin (Hkv * d) → Fin hid → ℚ)
    (qw kw : Fin d → ℚ) (h : Fin (Hkv * g)) (i j : Fin seq) : ℚ :=
  attnScores seq (Hkv * g) d invSqrtD
    (normHeads seq (Hkv * g) d qw (headsOf seq (Hkv * g) d hid Wq hidden))
    (expandKV seq Hkv d g
      (normHeads seq Hkv d kw (headsOf seq Hkv d hid Wk hidden)))
    h i j

/-- The attention weights of the reference block: scores, plus the causal
mask, through the row softmax (test.py lines 43-46). -/
def refAttnProbs (seq Hkv g d hid : ℕ) (e : ℚ → ℚ) (invSqrtD : ℚ)
    (hidden : Fin seq → Fin hid → ℚ)
    (Wq : Fin (Hkv * g * d) → Fin hid → ℚ) (Wk : Fin (Hkv * d) → Fin hid → ℚ)
    (qw kw : Fin d → ℚ) (h : Fin (Hkv * g)) (i j : Fin seq) : ℚ :=
  maskedSoftmax seq e
    (fun j2 => ((refAttnScores seq Hkv g d hid invSqrtD hidden Wq Wk qw kw h i j2 : ℚ) :
        WithBot ℚ) + causalMask seq i j2) j

/-- `context.transpose(1, 2).reshape(1, 6, 2048)` (test.py lines 52-53): heads
are concatenated back into one row, the last axis fastest. -/
def concatHeads (H d : ℕ) (c : Fin H → Fin d → ℚ) : Fin (H * d) → ℚ :=
  fun o => by
    have ho := o.isLt
    have hd : 0 < d := by
      rcases Nat.eq_zero_or_pos d with h0 | h0
      · subst h0; simp at ho
      · exact h0
    exact c ⟨(o : ℕ) / d, Nat.div_lt_of_lt_mul (by rw [Nat.mul_comm d H]; exact ho)⟩
      ⟨(o : ℕ) % d, Nat.mod_lt _ hd⟩

/-- The whole reference attention block of test.py (lines 14-61), batch axis
dropped: project and reshape Q, K, V; normalize Q and K per head; expand K and
V along the head axis; mask, softmax and weight V; concatenate heads and apply
the output projection. -/
def refAttention (seq Hkv g d hid : ℕ) (e : ℚ → ℚ) (invSqrtD : ℚ)
    (hidden : Fin seq → Fin hid → ℚ)
    (Wq : Fin (Hkv * g * d) → Fin hid → ℚ)
    (Wk Wv : Fin (Hkv * d) → Fin hid → ℚ)
    (Wo : Fin hid → Fin (Hkv * g * d) → ℚ)
    (qw kw : Fin d → ℚ) : Fin seq → Fin hid → ℚ :=
  let v := expandKV seq Hkv d g (headsOf seq Hkv d hid Wv hidden)
  let probs := refAttnProbs seq Hkv g d hid e invSqrtD hidden Wq Wk qw kw
  fun s => linearT Wo (concatHeads (Hkv * g) d
    (fun h t => ∑ j, probs h s j * v j h t))

/-- The alternative ordering named by the spec: K is expanded along the head
axis first and the per-head normalization is applied afterwards to the
expanded heads.  (Everything else is identical to `refAttention`.) -/
def refAttentionNormAfterRepeat (seq Hkv g d hid : ℕ) (e : ℚ → ℚ) (invSqrtD : ℚ)
    (hidden : Fin seq → Fin hid → ℚ)
    (Wq : Fin (Hkv * g * d) → Fin hid → ℚ)
    (Wk Wv : Fin (Hkv * d) → Fin hid → ℚ)
    (Wo : Fin hid → Fin (Hkv * g * d) → ℚ)
    (qw kw : Fin d → ℚ) : Fin seq → Fin hid → ℚ :=
  let v := expandKV seq Hkv d g (headsOf seq Hkv d hid Wv hidden)
  let probs := fun (h : Fin (Hkv * g)) (i j : Fin seq) =>
    maskedSoftmax seq e
      (fun j2 => ((attnScores seq (Hkv * g) d invSqrtD
          (normHeads seq (Hkv * g) d qw (headsOf seq (Hkv * g) d hid Wq hidden))
          (normHeads seq (Hkv * g) d kw
            (expandKV seq Hkv d g (headsOf seq Hkv d hid Wk hidden)))
          h i j2 : ℚ) : WithBot ℚ) + causalMask seq i j2) j
  fun s => linearT Wo (concatHeads (Hkv * g) d
    (fun h t => ∑ j, probs h s j * v j h t))

/-- Per-head normalization commutes with head-axis expansion: normalizing the
`Hkv` heads and then repeating each `g` times gives the same family as
repeating first and normalizing the `Hkv*g` expanded heads.  Both sides apply
the same per-head function to the same head data. -/
theorem normHeads_expandKV_comm (seq Hkv d g : ℕ) (kw : Fin d → ℚ)
    (x : Fin seq → Fin Hkv → Fin d → ℚ) :
    normHeads seq (Hkv * g) d kw (expandKV seq Hkv d g x)
      = expandKV seq Hkv d g (normHeads seq Hkv d kw x) := by
  funext s h t
  simp only [normHeads, expandKV, qkNorm, repeatHeads_apply]

/-- Claim C1: after `repeat_interleave`, query head `h` reads the data of
key/value head `⌊h / g⌋` (`kvPair`), for every position and every head family
(hence for every input hidden-state matrix); at `Hq = 16 = 8 * 2` the pairing
is `⌊h / 2⌋`, which differs from `h mod 8` (head 3 reads key/value head 1, not
head 3). -/
theorem gqa_floor_pairing :
    (∀ (seq Hkv d g : ℕ) (x : Fin seq → Fin Hkv → Fin d → ℚ) (s : Fin seq)
        (h : Fin (Hkv * g)) (t : Fin d),
        expandKV seq Hkv d g x s h t = x s (kvPair h) t)
    ∧ (∀ (seq Hkv g d hid : ℕ) (invSqrtD : ℚ) (hidden : Fin seq → Fin hid → ℚ)
        (Wq : Fin (Hkv * g * d) → Fin hid → ℚ) (Wk : Fin (Hkv * d) → Fin hid → ℚ)
        (qw kw : Fin d → ℚ) (h : Fin (Hkv * g)) (i j : Fin seq),
        refAttnScores seq Hkv g d hid invSqrtD hidden Wq Wk qw kw h i j
          = (∑ t, normHeads seq (Hkv * g) d qw
                (headsOf seq (Hkv * g) d hid Wq hidden) i h t
              * normHeads seq Hkv d kw (headsOf seq Hkv d hid Wk hidden) j
                (kvPair h) t) * invSqrtD)
    ∧ (∀ h : Fin (8 * 2), ((kvPair h : ℕ) = (h : ℕ) / 2))
    ∧ (∃ h : Fin (8 * 2), ((kvPair h : ℕ) ≠ (h : ℕ) % 8))
    ∧ expandKV 1 8 1 2 (fun _ h2 _ => ((h2 : ℕ) : ℚ)) 0 ⟨3, by norm_num⟩ 0 = 1 := by
  refine ⟨?_, ?_, ?_, ⟨⟨3, by norm_num⟩, by decide⟩, by decide⟩
  · intro seq Hkv d g x s h t
    simp only [expandKV, repeatHeads_apply]
  · intro seq Hkv g d hid invSqrtD hidden Wq Wk qw kw h i j
    simp only [refAttnScores, attnScores, expandKV, repeatHeads_apply]
  · intro h
    rfl

/-- Counterexample to claim C2's separation clause: there is no input on which
repeating the key heads before normalizing differs from normalizing before
repeating — the two whole-pipeline functions are equal, because the per-head
normalization commutes with `repeat_interleave` along the head axis. -/
theorem swap_norm_repeat_no_input_differs :
    @refAttention = @refAttentionNormAfterRepeat := by
  funext seq Hkv g d hid e invSqrtD hidden Wq Wk Wv Wo qw kw
  simp only [refAttention, refAttentionNormAfterRepeat, refAttnProbs,
    refAttnScores, normHeads_expandKV_comm]

/-- Claim C2 as amended: the reference block applies the per-head
normalization to Q and K before any score is computed — every score is the
scaled dot product of the normalized query head and normalized key head — but
the relative order of normalization and head repetition is immaterial: the
swapped pipeline produces identical output on every input. -/
theorem norm_applied_before_scores (seq Hkv g d hid : ℕ) (e : ℚ → ℚ)
    (invSqrtD : ℚ) (hidden : Fin seq → Fin hid → ℚ)
    (Wq : Fin (Hkv * g * d) → Fin hid → ℚ)
    (Wk Wv : Fin (Hkv * d) → Fin hid → ℚ)
    (Wo : Fin hid → Fin (Hkv * g * d) → ℚ) (qw kw : Fin d → ℚ) :
    (∀ (h : Fin (Hkv * g)) (i j : Fin seq),
      refAttnScores seq Hkv g d hid invSqrtD hidden Wq Wk qw kw h i j
        = (∑ t, qkNorm qw (headsOf seq (Hkv * g) d hid Wq hidden i h) t
            * qkNorm kw (headsOf seq Hkv d hid Wk hidden j (kvPair h)) t)
          * invSqrtD)
    ∧ refAttention seq Hkv g d hid e invSqrtD hidden Wq Wk Wv Wo qw kw
        = refAttentionNormAfterRepeat seq Hkv g d hid e invSqrtD hidden
            Wq Wk Wv Wo qw kw := by
  constructor
  · intro h i j
    simp only [refAttnScores, attnScores, expandKV, repeatHeads_apply, normHeads]
  · simp only [refAttention, refAttentionNormAfterRepeat, refAttnProbs,
      refAttnScores, normHeads_expandKV_comm]

/-- Claim C3: masked entries are `-inf` before the softmax, so the attention
weight from position `i` to any later position `j > i` is exactly `0`, for
every input, head and positive exponential; and at `seq_len = 1` the
distribution is the single entry with weight exactly `1`. -/
theorem causal_mask_zero_rows (e : ℚ → ℚ) (he : ∀ x : ℚ, 0 < e x) :
    (∀ (seq Hkv g d hid : ℕ) (invSqrtD : ℚ) (hidden : Fin seq → Fin hid → ℚ)
        (Wq : Fin (Hkv * g * d) → Fin hid → ℚ) (Wk : Fin (Hkv * d) → Fin hid → ℚ)
        (qw kw : Fin d → ℚ) (h : Fin (Hkv * g)) (i j : Fin seq),
        (i : ℕ) < (j : ℕ) →
        refAttnProbs seq Hkv g d hid e invSqrtD hidden Wq Wk qw kw h i j = 0)
    ∧ (∀ (Hkv g d hid : ℕ) (invSqrtD : ℚ) (hidden : Fin 1 → Fin hid → ℚ)
        (Wq : Fin (Hkv * g * d) → Fin hid → ℚ) (Wk : Fin (Hkv * d) → Fin hid → ℚ)
        (qw kw : Fin d → ℚ) (h : Fin (Hkv * g)) (i j : Fin 1),
        refAttnProbs 1 Hkv g d hid e invSqrtD hidden Wq Wk qw kw h i j = 1) := by
  constructor
  · intro seq Hkv g d hid invSqrtD hidden Wq Wk qw kw h i j hij
    simp only [refAttnProbs, maskedSoftmax, causalMask, if_pos hij,
      WithBot.add_bot]
    simp [expBot]
  · intro Hkv g d hid invSqrtD hidden Wq Wk qw kw h i j
    have hi : i = 0 := Subsingleton.elim i 0
    have hj : j = 0 := Subsingleton.elim j 0
    subst hi hj
    simp only [refAttnProbs, maskedSoftmax, causalMask, Fin.sum_univ_one]
    rw [if_neg (lt_irrefl _), ← WithBot.coe_add]
    simp only [expBot]
    exact div_self (ne_of_gt (he _))

/-- Witness for C3: with the constant-one exponential, weight from position 0
to position 5 at `seq_len = 6` is `0`, and the single `seq_len = 1` weight is
`1`, at concrete unit inputs. -/
theorem causal_mask_zero_rows_witness :
    refAttnProbs 6 1 1 1 1 (fun _ => 1) 1 (fun _ _ => 1) (fun _ _ => 1)
      (fun _ _ => 1) (fun _ => 1) (fun _ => 1) ⟨0, by norm_num⟩ ⟨0, by norm_num⟩
      ⟨5, by norm_num⟩ = 0
    ∧ refAttnProbs 1 1 1 1 1 (fun _ => 1) 1 (fun _ _ => 1) (fun _ _ => 1)
      (fun _ _ => 1) (fun _ => 1) (fun _ => 1) ⟨0, by norm_num⟩ 0 0 = 1 :=
  ⟨(causal_mask_zero_rows (fun _ => 1) (fun _ => one_pos)).1 6 1 1 1 1 1
      (fun _ _ => 1) (fun _ _ => 1) (fun _ _ => 1) (fun _ => 1) (fun _ => 1)
      _ _ _ (by norm_num),
   (causal_mask_zero_rows (fun _ => 1) (fun _ => one_pos)).2 1 1 1 1 1
      (fun _ _ => 1) (fun _ _ => 1) (fun _ _ => 1) (fun _ => 1) (fun _ => 1) _ _ _⟩

end Torchin
